import Mathlib

/-!
Verification development for the HTML-tag dataset extractor and the local
lookup responder (`dataset_utils.py` and `llm_demo.py`).

The Python code is embedded shallowly: strings are Lean `String`s (lists of
Unicode code points, matching Python's per-code-point `len` and slicing),
Python `int` is `Int`, dictionaries are association lists in insertion
order, and `re` searches over the two fixed patterns used by the code
(`<[^>]+>` and `\b<literal>\b`) are implemented directly as scanners.
Python's `str.strip` / `str.split` / `str.lower` and the regex word-character
class are modelled on the ASCII range, which covers the dataset format.
-/

/-! ## Character-level helpers -/

/-- A word character for the regex `\b` boundary: alphanumeric or underscore
(the ASCII fragment of Python's `\w`). -/
def isWordChar (c : Char) : Bool := c.isAlphanum || c == '_'

/-- A bracket delimiter, the character set of Python's `strip("<>")`. -/
def isAngle (c : Char) : Bool := c == '<' || c == '>'

/-- Python `str.strip()` with no arguments: drop whitespace from both ends. -/
def pyStripChars (cs : List Char) : List Char :=
  ((cs.dropWhile Char.isWhitespace).reverse.dropWhile Char.isWhitespace).reverse

/-- Python `str.strip()` on a `String`. -/
def pyStrip (s : String) : String := String.mk (pyStripChars s.data)

/-- Python `str.rstrip()`: drop trailing whitespace. -/
def pyRstrip (s : String) : String :=
  String.mk ((s.data.reverse.dropWhile Char.isWhitespace).reverse)

/-- Python `str.lower()` (ASCII case mapping). -/
def pyLowerStr (s : String) : String := String.mk (s.data.map Char.toLower)

/-- Python `str.strip("<>")`: drop `<` and `>` from both ends of a key. -/
def stripAngles (s : String) : String :=
  String.mk (((s.data.dropWhile isAngle).reverse.dropWhile isAngle).reverse)

/-- Helper for Python `str.split()`: accumulate the current word (reversed in
`acc`) and cut at whitespace runs, dropping empty pieces. -/
def splitWsAux : List Char → List Char → List (List Char)
  | [], acc => if acc.isEmpty then [] else [acc.reverse]
  | c :: cs, acc =>
    if c.isWhitespace then
      if acc.isEmpty then splitWsAux cs [] else acc.reverse :: splitWsAux cs []
    else splitWsAux cs (c :: acc)

/-- Python `str.split()` with no arguments: whitespace-delimited words. -/
def pySplit (s : String) : List String :=
  (splitWsAux s.data []).map String.mk

/-- Does `sub` stand at the start of `s`? (literal character comparison). -/
def listStartsWith : List Char → List Char → Bool
  | [], _ => true
  | _ :: _, [] => false
  | a :: as, b :: bs => a == b && listStartsWith as bs

/-- Is `sub` a contiguous substring of `s`? (used to state containment facts
about produced messages). -/
def listInfix (sub : List Char) : List Char → Bool
  | [] => sub.isEmpty
  | c :: rest => listStartsWith sub (c :: rest) || listInfix sub rest

/-- String-level substring containment. -/
def strContains (s sub : String) : Bool := listInfix sub.data s.data

/-! ## The declaration-token pattern `<[^>]+>`

Both `dataset_utils._TAG_PATTERN` and `LocalHTMLTagLLM._TAG_PATTERN` compile
the regex `<[^>]+>`. `re.search` with this pattern succeeds at the leftmost
`<` that is followed by at least one non-`>` character and then a `>`. -/

/-- The characters after an opening `<` up to (excluding) the first `>`;
`none` when no `>` follows. -/
def takeTag : List Char → Option (List Char)
  | [] => none
  | c :: rest => if c == '>' then some [] else (takeTag rest).map (fun body => c :: body)

/-- `re.search(r"<[^>]+>", s)`: the leftmost match of the declaration-token
pattern, as the matched substring. -/
def searchTag : List Char → Option (List Char)
  | [] => none
  | c :: rest =>
    if c == '<' then
      match takeTag rest with
      | some body => if body.isEmpty then searchTag rest else some ('<' :: (body ++ ['>']))
      | none => searchTag rest
    else searchTag rest

/-- `LocalHTMLTagLLM._extract_tag`: first declaration token in the prompt. -/
def extractTag (prompt : String) : Option String :=
  (searchTag prompt.data).map String.mk

/-- `dataset_utils._looks_like_tag_line`: an empty line is rejected, any other
line is a key line iff the tag pattern matches somewhere inside it. -/
def looksLikeTagLine (line : String) : Bool :=
  if line.isEmpty then false else (searchTag line.data).isSome

/-! ## The word-boundary search `\b<literal>\b`

`LocalHTMLTagLLM.generate` runs `re.search(rf"\b{re.escape(plain)}\b",
lowered)`; `re.escape` makes `plain` a literal, so the search is: some
position of `lowered` where `plain` starts, with a `\b` boundary on each
side. A `\b` boundary holds between two positions iff exactly one of the
surrounding characters (string edges counting as non-word) is a word
character. -/

/-- The `\b` assertion between an optional left character and an optional
right character. -/
def wordBoundary (a b : Option Char) : Bool :=
  (match a with | none => false | some c => isWordChar c)
    != (match b with | none => false | some c => isWordChar c)

/-- Match of the literal `plain` with `\b` on both sides at the head of the
suffix `s`, where `prev` is the character just before `s` in the full text. -/
def matchHere (plain s : List Char) (prev : Option Char) : Bool :=
  listStartsWith plain s
    && wordBoundary prev s.head?
    && wordBoundary plain.getLast? ((s.drop plain.length).head?)

/-- Scan all start positions, carrying the previous character. -/
def searchWordAux (plain : List Char) : Option Char → List Char → Bool
  | prev, [] => matchHere plain [] prev
  | prev, c :: rest => matchHere plain (c :: rest) prev || searchWordAux plain (some c) rest

/-- `re.search(rf"\b{re.escape(plain)}\b", s)` as a Boolean. -/
def searchWord (plain s : List Char) : Bool := searchWordAux plain none s

/-- Whole-word occurrence of `plain` at position `i` of `s` (the declarative
counterpart of `searchWord`, used to state the fuzzy-match claims). -/
def wordOccursAt (plain s : List Char) (i : Nat) : Bool :=
  matchHere plain (s.drop i) (if i = 0 then none else s[i - 1]?)

/-! ## The Responder (`LocalHTMLTagLLM`) -/

/-- The literal appended by `_trim` in the truncation branch. The source file
stores the ellipsis double-encoded, so the Python string literal holds the
three characters U+00E2, U+20AC, U+00A6. -/
def ellipsisSeq : String := String.mk [Char.ofNat 0xE2, Char.ofNat 0x20AC, Char.ofNat 0xA6]

/-- `LocalHTMLTagLLM._trim`: empty for a non-positive budget, identity when
the text fits, otherwise the first `maxLength - 1` characters with trailing
whitespace stripped, followed by `ellipsisSeq`. -/
def trim (text : String) (maxLength : Int) : String :=
  if maxLength ≤ 0 then ""
  else if (text.length : Int) ≤ maxLength then text
  else pyRstrip (String.mk (text.data.take (maxLength - 1).toNat)) ++ ellipsisSeq

/-- The default fallback message of `LocalHTMLTagLLM.generate` (the three
adjacent Python literals concatenated). -/
def fallbackMessage : String :=
  "I'm a tiny in-repo language model that specialises in HTML " ++
  "elements, but I don't recognise that prompt yet. Try asking " ++
  "about a specific tag like <a> or <section>."

/-- The exact-match step of `generate`: `if tag and tag in
self.tag_to_description`, then the looked-up description. The knowledge base
dictionary is represented by its items in insertion order (keys unique). -/
def exactTagHit (kb : List (String × String)) (prompt : String) : Option String :=
  match extractTag prompt with
  | some tag => if tag.isEmpty then none else kb.lookup tag
  | none => none

/-- The fuzzy-match loop of `generate`: iterate the knowledge base in stored
order, strip the key's bracket delimiters, lowercase it, skip stripped forms
of length at most 1, and return the first description whose stripped key
occurs as a whole word in the lowered prompt. -/
def fuzzyLookup : List (String × String) → String → Option String
  | [], _ => none
  | (k, d) :: rest, lowered =>
    let plain := pyLowerStr (stripAngles k)
    if plain.length ≤ 1 then fuzzyLookup rest lowered
    else if searchWord plain.data lowered.data then some d
    else fuzzyLookup rest lowered

/-- `LocalHTMLTagLLM.generate`. -/
def generate (kb : List (String × String)) (prompt : String) (maxLength : Int) : String :=
  match exactTagHit kb prompt with
  | some desc => trim desc maxLength
  | none =>
    match fuzzyLookup kb (pyLowerStr prompt) with
    | some desc => trim desc maxLength
    | none => trim fallbackMessage maxLength

/-! ## The Extractor (`load_html_tag_dataset`) -/

/-- Python truthiness of the `current_tag` optional string. -/
def pyTruthy : Option String → Bool
  | none => false
  | some s => !s.isEmpty

/-- Python `" ".join(...)` on character lists. -/
def joinSpaceChars : List (List Char) → List Char
  | [] => []
  | [w] => w
  | w :: ws => w ++ ' ' :: joinSpaceChars ws

/-- The normalized description built on flush: `" ".join(part.strip() for
part in description_lines)` followed by `" ".join(description.split())`. -/
def mkDescription (parts : List String) : String :=
  let description := joinSpaceChars (parts.map (fun p => pyStripChars p.data))
  String.mk (joinSpaceChars (splitWsAux description []))

/-- `flush_current`: emit a pair only when a key is pending (truthy) and the
description buffer is non-empty. -/
def flushCurrent (tag : Option String) (buf : List String)
    (acc : List (String × String)) : List (String × String) :=
  if pyTruthy tag && !buf.isEmpty then acc ++ [(tag.getD "", mkDescription buf)]
  else acc

/-- The line loop of `load_html_tag_dataset`: strip each raw line; a blank
line flushes; a key line flushes and becomes the pending key; any other line
is appended to the buffer when a key is pending and skipped otherwise; the
end of input flushes once more. -/
def extractLoop : List String → Option String → List String →
    List (String × String) → List (String × String)
  | [], tag, buf, acc => flushCurrent tag buf acc
  | raw :: rest, tag, buf, acc =>
    let line := pyStrip raw
    if line.isEmpty then
      extractLoop rest none [] (flushCurrent tag buf acc)
    else if looksLikeTagLine line then
      extractLoop rest (some line) [] (flushCurrent tag buf acc)
    else
      match tag with
      | none => extractLoop rest none buf acc
      | some t => extractLoop rest (some t) (buf ++ [line]) acc

/-- The parsing pass of `load_html_tag_dataset` on an already-split list of
lines (reading the file and `splitlines` are the caller's I/O boundary). -/
def extract (lines : List String) : List (String × String) :=
  extractLoop lines none [] []

/-! ## Normalization predicate

The spec's invariant for descriptions: non-empty, no leading or trailing
whitespace, and every internal whitespace run collapsed to one single space
character. -/

/-- Every whitespace character is a plain space not followed by whitespace,
and the final character is not whitespace. -/
def wsTidy : List Char → Bool
  | [] => true
  | [c] => !c.isWhitespace
  | c :: d :: rest =>
    (if c.isWhitespace then c == ' ' && !d.isWhitespace else true) && wsTidy (d :: rest)

/-- The spec's "whitespace-normalized" property of a non-empty string. -/
def wsNormalized (cs : List Char) : Bool :=
  match cs with
  | [] => false
  | c :: _ => !c.isWhitespace && wsTidy cs

/-! ## Basic lemmas about the embedded operations -/

theorem string_mk_length (l : List Char) : (String.mk l).length = l.length := rfl

theorem string_data_append (a b : String) : (a ++ b).data = a.data ++ b.data := rfl

theorem searchTag_ne_nil : ∀ (cs t : List Char), searchTag cs = some t → t ≠ [] := by
  intro cs
  induction cs with
  | nil => intro t h; simp [searchTag] at h
  | cons c rest ih =>
    intro t h
    simp only [searchTag] at h
    split at h
    · split at h
      · split at h
        · exact ih t h
        · cases h; simp
      · exact ih t h
    · exact ih t h

theorem extractTag_not_empty {p tag : String} (h : extractTag p = some tag) :
    tag.isEmpty = false := by
  unfold extractTag at h
  cases hs : searchTag p.data with
  | none => rw [hs] at h; simp at h
  | some t =>
    rw [hs] at h
    simp only [Option.map_some'] at h
    have ht := searchTag_ne_nil _ _ hs
    cases h
    rw [Bool.eq_false_iff]
    intro he
    have hmk : String.mk t = "" := (String.isEmpty_iff _).mp he
    apply ht
    have : (String.mk t).data = ("" : String).data := by rw [hmk]
    simpa using this

theorem exactTagHit_eq {kb : List (String × String)} {p tag desc : String}
    (ht : extractTag p = some tag) (hd : kb.lookup tag = some desc) :
    exactTagHit kb p = some desc := by
  unfold exactTagHit
  simp [ht, extractTag_not_empty ht, hd]

theorem generate_exact {kb : List (String × String)} {p tag desc : String} {m : Int}
    (ht : extractTag p = some tag) (hd : kb.lookup tag = some desc) :
    generate kb p m = trim desc m := by
  unfold generate
  rw [exactTagHit_eq ht hd]

/-- C1: when the first declaration token of the prompt is verbatim a key of
the knowledge base, `generate` returns that key's description passed through
the length policy; in particular the spec's concrete example returns exactly
"Defines a hyperlink.". -/
theorem C1_exact_declaration_match :
    (∀ (kb : List (String × String)) (prompt : String) (maxLength : Int) (tag desc : String),
      extractTag prompt = some tag → kb.lookup tag = some desc →
      generate kb prompt maxLength = trim desc maxLength)
    ∧ generate [("<a>", "Defines a hyperlink.")] "Describe the HTML element `<a>`." 80
        = "Defines a hyperlink." := by
  constructor
  · intro kb p m tag desc ht hd
    exact generate_exact ht hd
  · decide

/-- Witness for C1: the general statement applied to a concrete knowledge
base and prompt. -/
theorem C1_exact_declaration_match_witness :
    generate [("<p>", "para")] "x <p> y" 10 = trim "para" 10 :=
  C1_exact_declaration_match.1 [("<p>", "para")] "x <p> y" 10 "<p>" "para"
    (by decide) (by decide)

/-- C4: a flush emits a record only when a key is pending and the buffer is
non-empty; a key followed by a blank line yields nothing, and of two adjacent
key lines only the second can produce a record. -/
theorem C4_flush_semantics :
    (∀ (tag : Option String) (buf : List String) (acc : List (String × String)),
      flushCurrent tag buf acc = acc ∨
      (pyTruthy tag = true ∧ buf ≠ [] ∧
        flushCurrent tag buf acc = acc ++ [(tag.getD "", mkDescription buf)]))
    ∧ extract ["<a>", ""] = []
    ∧ extract ["<a>", "", "stuff"] = []
    ∧ extract ["<a>", "<b>"] = []
    ∧ extract ["<a>", "<b>", "x"] = [("<b>", "x")] := by
  refine ⟨?_, by decide, by decide, by decide, by decide⟩
  intro tag buf acc
  unfold flushCurrent
  by_cases h : (pyTruthy tag && !buf.isEmpty) = true
  · right
    have h' := h
    simp only [Bool.and_eq_true] at h'
    obtain ⟨h1, h2⟩ := h'
    refine ⟨h1, ?_, by rw [if_pos h]⟩
    cases buf with
    | nil => simp at h2
    | cons b bs => simp
  · left
    rw [if_neg h]

/-- C5 fails as stated: for max_length 5 and "Hello World" the truncation
result has 7 characters, not 5, because the appended literal is the
three-character mojibake sequence, not a single ellipsis character. -/
theorem C5_length_policy_counterexample :
    (trim "Hello World" 5).length ≠ 5 := by decide

/-- C5 (amended): trim returns the empty string when max_length ≤ 0, the text
unchanged when it fits, and otherwise the first max_length - 1 characters
with trailing whitespace stripped followed by the fixed three-character
sequence `ellipsisSeq`; for max_length 5 and "Hello World" the result is the
first 4 characters followed by that sequence, 7 characters in all. -/
theorem C5_length_policy :
    (∀ (text : String) (m : Int), m ≤ 0 → trim text m = "")
    ∧ (∀ (text : String) (m : Int), 0 < m → (text.length : Int) ≤ m → trim text m = text)
    ∧ (∀ (text : String) (m : Int), 0 < m → m < (text.length : Int) →
        trim text m = pyRstrip (String.mk (text.data.take (m - 1).toNat)) ++ ellipsisSeq)
    ∧ trim "Hello World" 5 = "Hell" ++ ellipsisSeq
    ∧ (trim "Hello World" 5).length = 7 := by
  refine ⟨?_, ?_, ?_, by decide, by decide⟩
  · intro text m hm
    unfold trim
    rw [if_pos hm]
  · intro text m hm hfit
    unfold trim
    rw [if_neg (not_le.mpr hm), if_pos hfit]
  · intro text m hm hlong
    unfold trim
    rw [if_neg (not_le.mpr hm), if_neg (not_le.mpr hlong)]

/-- Witness for C5: the truncation branch of the amended statement at a
concrete text and budget. -/
theorem C5_length_policy_witness :
    trim "Hello World" 5
      = pyRstrip (String.mk ("Hello World".data.take ((5 : Int) - 1).toNat)) ++ ellipsisSeq :=
  C5_length_policy.2.2.1 "Hello World" 5 (by decide) (by decide)

set_option maxRecDepth 4096 in
/-- C6 fails as stated: with max_length 50 the returned string is truncated
and contains neither the token `<section>` nor the recognise marker. -/
theorem C6_default_fallback_counterexample :
    strContains (generate [("<a>", "Defines a hyperlink.")] "What is a widget?" 50)
        "<section>" = false
    ∧ strContains (generate [("<a>", "Defines a hyperlink.")] "What is a widget?" 50)
        "recogni" = false := by
  exact ⟨by decide, by decide⟩

set_option maxRecDepth 4096 in
/-- C6 (amended): the unmatched query resolves to the default fallback passed
through the length policy; the untrimmed fallback message contains the
"don't recognise" marker and names both `<a>` and `<section>`, while the
50-character trim keeps only the opening of the message. -/
theorem C6_default_fallback :
    generate [("<a>", "Defines a hyperlink.")] "What is a widget?" 50
        = trim fallbackMessage 50
    ∧ strContains fallbackMessage "don't recognise" = true
    ∧ strContains fallbackMessage "<a>" = true
    ∧ strContains fallbackMessage "<section>" = true
    ∧ strContains (trim fallbackMessage 50) "tiny in-repo language model" = true := by
  exact ⟨by decide, by decide, by decide, by decide, by decide⟩

/-- C7: the truncation branch can return a string exactly one character
longer than max_length (here: one trailing space is stripped before the
three-character sequence is appended). -/
theorem C7_off_by_one :
    ∃ (text : String) (m : Nat), 0 < m ∧ m < text.length ∧
      (trim text (m : Int)).length = m + 1 :=
  ⟨"abc defg", 5, by decide, by decide, by decide⟩

/-- C9: the Extractor's key-line classifier and the Responder's tag extractor
agree on every line: a line looks like a tag line exactly when the shared
bracket pattern finds a declaration token in it. -/
theorem C9_shared_matcher (line : String) :
    looksLikeTagLine line = true ↔ (extractTag line).isSome = true := by
  unfold looksLikeTagLine extractTag
  by_cases h : line.isEmpty
  · rw [if_pos h]
    have he : line = "" := (String.isEmpty_iff _).mp h
    subst he
    constructor
    · intro hfalse
      exact absurd hfalse (by decide)
    · intro hsome
      exact absurd hsome (by decide)
  · rw [if_neg h]
    simp [Option.isSome_map]

/-! ## Fallback resolution (C8) -/

theorem generate_fallback {kb : List (String × String)} {q : String} {m : Int}
    (h1 : exactTagHit kb q = none) (h2 : fuzzyLookup kb (pyLowerStr q) = none) :
    generate kb q m = trim fallbackMessage m := by
  unfold generate
  rw [h1, h2]

theorem searchWord_nil {plain : List Char} (h : plain ≠ []) : searchWord plain [] = false := by
  cases plain with
  | nil => exact absurd rfl h
  | cons c cs => simp [searchWord, searchWordAux, matchHere, listStartsWith]

theorem fuzzyLookup_empty_query (kb : List (String × String)) : fuzzyLookup kb "" = none := by
  induction kb with
  | nil => rfl
  | cons p rest ih =>
    obtain ⟨k, d⟩ := p
    unfold fuzzyLookup
    by_cases h : (pyLowerStr (stripAngles k)).length ≤ 1
    · rw [if_pos h]
      exact ih
    · rw [if_neg h]
      have hplain : (pyLowerStr (stripAngles k)).data ≠ [] := by
        intro hnil
        apply h
        have hlen : (pyLowerStr (stripAngles k)).length = 0 := by
          show (pyLowerStr (stripAngles k)).data.length = 0
          rw [hnil]
          rfl
        omega
      have hsw : searchWord (pyLowerStr (stripAngles k)).data ("" : String).data = false := by
        have : ("" : String).data = [] := rfl
        rw [this]
        exact searchWord_nil hplain
      simp only [hsw, Bool.false_eq_true, if_false]
      exact ih

/-- C8: every query with no exact declaration hit and no fuzzy hit resolves
to the default fallback text (passed through the length policy); the empty
query always does.  The embedded `generate` is a total function, so every
input yields a string. -/
theorem C8_responder_totality :
    (∀ (kb : List (String × String)) (q : String) (m : Int),
      exactTagHit kb q = none → fuzzyLookup kb (pyLowerStr q) = none →
      generate kb q m = trim fallbackMessage m)
    ∧ (∀ (kb : List (String × String)) (m : Int),
      generate kb "" m = trim fallbackMessage m) := by
  constructor
  · intro kb q m h1 h2
    exact generate_fallback h1 h2
  · intro kb m
    apply generate_fallback
    · rfl
    · have h : pyLowerStr "" = "" := rfl
      rw [h]
      exact fuzzyLookup_empty_query kb

/-- Witness for C8: the general fallback statement at a concrete knowledge
base and query with no exact and no fuzzy match. -/
theorem C8_responder_totality_witness :
    generate [("<a>", "short")] "zzz" 10 = trim fallbackMessage 10 :=
  C8_responder_totality.1 [("<a>", "short")] "zzz" 10 (by decide) (by decide)

/-! ## Length bound of every generated string (C10) -/

theorem pyRstrip_length_le (s : String) : (pyRstrip s).length ≤ s.length := by
  show ((s.data.reverse.dropWhile Char.isWhitespace).reverse).length ≤ s.data.length
  rw [List.length_reverse]
  calc (s.data.reverse.dropWhile Char.isWhitespace).length
      ≤ s.data.reverse.length := (List.dropWhile_sublist _).length_le
    _ = s.data.length := List.length_reverse _

theorem trim_length_le (text : String) (m : Int) : (trim text m).length ≤ m.toNat + 2 := by
  unfold trim
  by_cases h0 : m ≤ 0
  · rw [if_pos h0]
    exact Nat.zero_le _
  · rw [if_neg h0]
    by_cases hfit : (text.length : Int) ≤ m
    · rw [if_pos hfit]
      omega
    · rw [if_neg hfit]
      have h1 : (pyRstrip (String.mk (text.data.take (m - 1).toNat))).length
          ≤ (m - 1).toNat := by
        calc (pyRstrip (String.mk (text.data.take (m - 1).toNat))).length
            ≤ (String.mk (text.data.take (m - 1).toNat)).length := pyRstrip_length_le _
          _ = (text.data.take (m - 1).toNat).length := rfl
          _ ≤ (m - 1).toNat := by
              rw [List.length_take]
              exact Nat.min_le_left _ _
      have h2 : (pyRstrip (String.mk (text.data.take (m - 1).toNat)) ++ ellipsisSeq).length
          = (pyRstrip (String.mk (text.data.take (m - 1).toNat))).length + 3 := by
        show ((pyRstrip (String.mk (text.data.take (m - 1).toNat))).data
            ++ ellipsisSeq.data).length = _
        rw [List.length_append]
        rfl
      omega

theorem generate_length_le (kb : List (String × String)) (prompt : String) (m : Int) :
    (generate kb prompt m).length ≤ m.toNat + 2 := by
  unfold generate
  cases exactTagHit kb prompt with
  | some d => exact trim_length_le d m
  | none =>
    cases fuzzyLookup kb (pyLowerStr prompt) with
    | some d => exact trim_length_le d m
    | none => exact trim_length_le fallbackMessage m

set_option maxRecDepth 4096 in
/-- C10 fails as stated: the fallback at max_length 5 yields 6 characters,
and a matched description can come out exactly max_length + 1 characters
long. -/
theorem C10_hard_bound_counterexample :
    ¬ ((generate [] "" 5).length ≤ 5)
    ∧ (generate [("<ab>", "abc defg")] "ab" 5).length = 5 + 1 := by
  exact ⟨by decide, by decide⟩

/-- C10 (amended): through every branch the returned string is at most
max(max_length, 0) + 2 characters long (the truncation branch appends the
three-character mojibake sequence after cutting at max_length - 1), so the
claimed hard cap of max(max_length, 0) does not hold and lengths of
max_length + 1 and max_length + 2 are attainable. -/
theorem C10_soft_length_bound (kb : List (String × String)) (prompt : String) (m : Int) :
    (generate kb prompt m).length ≤ m.toNat + 2 :=
  generate_length_le kb prompt m

/-! ## Correctness of the word search (C2) -/

theorem matchHere_nil (plain : List Char) (prev : Option Char) :
    matchHere plain [] prev = false := by
  cases plain with
  | nil => simp [matchHere, listStartsWith, wordBoundary]
  | cons c cs => simp [matchHere, listStartsWith]

theorem searchWordAux_eq_true_iff (plain : List Char) (s : List Char) :
    ∀ (prev : Option Char),
      searchWordAux plain prev s = true ↔
        ∃ i, matchHere plain (s.drop i) (if i = 0 then prev else s[i - 1]?) = true := by
  induction s with
  | nil =>
    intro prev
    unfold searchWordAux
    rw [matchHere_nil]
    constructor
    · intro h
      exact absurd h (by decide)
    · rintro ⟨i, hi⟩
      rw [List.drop_nil, matchHere_nil] at hi
      exact absurd hi (by decide)
  | cons c rest ih =>
    intro prev
    unfold searchWordAux
    rw [Bool.or_eq_true, ih (some c)]
    constructor
    · rintro (h | ⟨j, hj⟩)
      · exact ⟨0, by simpa using h⟩
      · refine ⟨j + 1, ?_⟩
        cases j with
        | zero => simpa using hj
        | succ k => simpa using hj
    · rintro ⟨i, hi⟩
      cases i with
      | zero =>
        left
        simpa using hi
      | succ j =>
        right
        refine ⟨j, ?_⟩
        cases j with
        | zero => simpa using hi
        | succ k => simpa using hi

theorem searchWord_iff (plain s : List Char) :
    searchWord plain s = true ↔ ∃ i, wordOccursAt plain s i = true := by
  unfold searchWord wordOccursAt
  exact searchWordAux_eq_true_iff plain s none

/-- The spec's fuzzy-match criterion for one key against a query: the
bracket-stripped, lowercased key has length at least 2 and occurs as a
whole word (word boundaries on both sides) somewhere in the lowercased
query. -/
def KeyFuzzyMatches (key query : String) : Prop :=
  2 ≤ (pyLowerStr (stripAngles key)).length ∧
  ∃ i, wordOccursAt (pyLowerStr (stripAngles key)).data (pyLowerStr query).data i = true

theorem fuzzyLookup_append {kb₁ kb₂ : List (String × String)} {k d q : String}
    (hnone : ∀ p ∈ kb₁, ¬ KeyFuzzyMatches p.1 q)
    (hk : KeyFuzzyMatches k q) :
    fuzzyLookup (kb₁ ++ (k, d) :: kb₂) (pyLowerStr q) = some d := by
  induction kb₁ with
  | nil =>
    rw [List.nil_append]
    unfold fuzzyLookup
    obtain ⟨hlen, hocc⟩ := hk
    rw [if_neg (by omega)]
    rw [if_pos ((searchWord_iff _ _).mpr hocc)]
  | cons p rest ih =>
    obtain ⟨k', d'⟩ := p
    rw [List.cons_append]
    unfold fuzzyLookup
    have hnp : ¬ KeyFuzzyMatches k' q := hnone (k', d') (List.mem_cons_self _ _)
    have htail : ∀ p ∈ rest, ¬ KeyFuzzyMatches p.1 q :=
      fun p hp => hnone p (List.mem_cons_of_mem _ hp)
    by_cases hlen : (pyLowerStr (stripAngles k')).length ≤ 1
    · rw [if_pos hlen]
      exact ih htail
    · rw [if_neg hlen]
      have hsw : searchWord (pyLowerStr (stripAngles k')).data (pyLowerStr q).data = false := by
        rw [Bool.eq_false_iff]
        intro htrue
        exact hnp ⟨by omega, (searchWord_iff _ _).mp htrue⟩
      simp only [hsw, Bool.false_eq_true, if_false]
      exact ih htail

theorem generate_fuzzy {kb : List (String × String)} {q d : String} {m : Int}
    (h1 : exactTagHit kb q = none) (h2 : fuzzyLookup kb (pyLowerStr q) = some d) :
    generate kb q m = trim d m := by
  unfold generate
  rw [h1, h2]

/-- C2: when the exact step misses, `generate` walks the knowledge base in
stored order, skips keys whose stripped form has length at most 1, and
returns the description of the first key whose stripped form occurs
case-insensitively as a whole word in the query; on the ordered base
(<foo>, <foobar>) the query "tell me about foo" yields "d1", and "foobar"
never matches inside a longer word. -/
theorem C2_fuzzy_name_match :
    (∀ (kb₁ kb₂ : List (String × String)) (k d q : String) (m : Int),
      exactTagHit (kb₁ ++ (k, d) :: kb₂) q = none →
      (∀ p ∈ kb₁, ¬ KeyFuzzyMatches p.1 q) →
      KeyFuzzyMatches k q →
      generate (kb₁ ++ (k, d) :: kb₂) q m = trim d m)
    ∧ generate [("<foo>", "d1"), ("<foobar>", "d2")] "tell me about foo" 80 = "d1"
    ∧ searchWord "foobar".data (pyLowerStr "tell me about foo").data = false := by
  refine ⟨?_, by decide, by decide⟩
  intro kb₁ kb₂ k d q m h1 h2 h3
  exact generate_fuzzy h1 (fuzzyLookup_append h2 h3)

/-- Witness for C2: the general statement at a concrete ordered knowledge
base whose first key is skipped (stripped form of length 1) and whose second
key matches as a whole word at position 14. -/
theorem C2_fuzzy_name_match_witness :
    generate [("<x>", "dx"), ("<foo>", "d1")] "tell me about foo" 80 = trim "d1" 80 :=
  C2_fuzzy_name_match.1 [("<x>", "dx")] [] "<foo>" "d1" "tell me about foo" 80
    (by decide)
    (by
      intro p hp
      rw [List.mem_singleton] at hp
      subst hp
      rintro ⟨hlen, -⟩
      revert hlen
      decide)
    ⟨by decide, 14, by decide⟩

/-! ## The Extractor's record invariant (C3) -/

theorem wsTidy_singleton (c : Char) : wsTidy [c] = !c.isWhitespace := rfl

theorem wsTidy_cons₂ (c d : Char) (rest : List Char) :
    wsTidy (c :: d :: rest)
      = ((if c.isWhitespace then c == ' ' && !d.isWhitespace else true)
          && wsTidy (d :: rest)) := rfl

theorem wsNormalized_cons (c : Char) (l : List Char) :
    wsNormalized (c :: l) = (!c.isWhitespace && wsTidy (c :: l)) := rfl

theorem dropWhile_head_false (p : Char → Bool) :
    ∀ (cs : List Char) {c : Char} {rest : List Char},
      cs.dropWhile p = c :: rest → p c = false := by
  intro cs
  induction cs with
  | nil =>
    intro c rest h
    simp [List.dropWhile] at h
  | cons a as ih =>
    intro c rest h
    rw [List.dropWhile_cons] at h
    by_cases hp : p a = true
    · rw [if_pos hp] at h
      exact ih h
    · rw [if_neg hp] at h
      cases h
      exact Bool.eq_false_iff.mpr hp

theorem mem_dropWhile_of_neg (p : Char → Bool) {c : Char} :
    ∀ (cs : List Char), c ∈ cs → p c = false → c ∈ cs.dropWhile p := by
  intro cs
  induction cs with
  | nil =>
    intro h
    simp at h
  | cons a as ih =>
    intro hmem hc
    rw [List.dropWhile_cons]
    by_cases hp : p a = true
    · rw [if_pos hp]
      rcases List.mem_cons.mp hmem with h | h
      · subst h
        rw [hp] at hc
        cases hc
      · exact ih h hc
    · rw [if_neg hp]
      exact hmem

theorem pyStripChars_has_nonws {cs : List Char} (h : pyStripChars cs ≠ []) :
    ∃ c ∈ pyStripChars cs, c.isWhitespace = false := by
  unfold pyStripChars at *
  cases hb : (cs.dropWhile Char.isWhitespace).reverse.dropWhile Char.isWhitespace with
  | nil =>
    rw [hb] at h
    simp at h
  | cons x b =>
    refine ⟨x, ?_, dropWhile_head_false _ _ hb⟩
    simp

theorem mem_pyStripChars {c : Char} {cs : List Char}
    (hmem : c ∈ cs) (hc : c.isWhitespace = false) : c ∈ pyStripChars cs := by
  unfold pyStripChars
  rw [List.mem_reverse]
  apply mem_dropWhile_of_neg _ _ _ hc
  rw [List.mem_reverse]
  exact mem_dropWhile_of_neg _ _ hmem hc

theorem mem_joinSpaceChars {x : Char} : ∀ (ws : List (List Char)) (w : List Char),
    w ∈ ws → x ∈ w → x ∈ joinSpaceChars ws := by
  intro ws
  induction ws with
  | nil =>
    intro w h
    simp at h
  | cons a rest ih =>
    intro w hw hx
    cases rest with
    | nil =>
      rw [List.mem_singleton] at hw
      subst hw
      exact hx
    | cons b rest' =>
      show x ∈ a ++ ' ' :: joinSpaceChars (b :: rest')
      rcases List.mem_cons.mp hw with h | h
      · subst h
        exact List.mem_append_left _ hx
      · exact List.mem_append_right _ (List.mem_cons_of_mem _ (ih w h hx))

theorem splitWsAux_good : ∀ (cs acc : List Char),
    (∀ c ∈ acc, c.isWhitespace = false) →
    ∀ w ∈ splitWsAux cs acc, w ≠ [] ∧ ∀ c ∈ w, c.isWhitespace = false := by
  intro cs
  induction cs with
  | nil =>
    intro acc hacc w hw
    unfold splitWsAux at hw
    by_cases ha : acc.isEmpty
    · rw [if_pos ha] at hw
      simp at hw
    · rw [if_neg ha] at hw
      rw [List.mem_singleton] at hw
      subst hw
      constructor
      · intro hnil
        exact ha (List.isEmpty_iff.mpr (List.reverse_eq_nil_iff.mp hnil))
      · intro c hc
        exact hacc c (List.mem_reverse.mp hc)
  | cons c cs ih =>
    intro acc hacc w hw
    unfold splitWsAux at hw
    by_cases hws : c.isWhitespace = true
    · rw [if_pos hws] at hw
      by_cases ha : acc.isEmpty
      · rw [if_pos ha] at hw
        exact ih [] (by simp) w hw
      · rw [if_neg ha] at hw
        rcases List.mem_cons.mp hw with h | h
        · subst h
          constructor
          · intro hnil
            exact ha (List.isEmpty_iff.mpr (List.reverse_eq_nil_iff.mp hnil))
          · intro x hx
            exact hacc x (List.mem_reverse.mp hx)
        · exact ih [] (by simp) w h
    · rw [if_neg hws] at hw
      refine ih (c :: acc) ?_ w hw
      intro x hx
      rcases List.mem_cons.mp hx with h | h
      · subst h
        exact Bool.eq_false_iff.mpr hws
      · exact hacc x h

theorem splitWsAux_ne_nil : ∀ (cs acc : List Char),
    ((∃ c ∈ cs, c.isWhitespace = false) ∨ acc ≠ []) → splitWsAux cs acc ≠ [] := by
  intro cs
  induction cs with
  | nil =>
    intro acc h
    unfold splitWsAux
    rcases h with ⟨c, hc, _⟩ | h
    · simp at hc
    · rw [if_neg (fun he => h (List.isEmpty_iff.mp he))]
      simp
  | cons c cs ih =>
    intro acc h
    unfold splitWsAux
    by_cases hws : c.isWhitespace = true
    · rw [if_pos hws]
      by_cases ha : acc.isEmpty
      · rw [if_pos ha]
        apply ih
        left
        rcases h with ⟨x, hx, hxw⟩ | hne
        · rcases List.mem_cons.mp hx with he | he
          · subst he
            rw [hws] at hxw
            cases hxw
          · exact ⟨x, he, hxw⟩
        · exact absurd (List.isEmpty_iff.mp ha) hne
      · rw [if_neg ha]
        simp
    · rw [if_neg hws]
      apply ih
      right
      simp

theorem wsTidy_of_all_nonws : ∀ (cs : List Char),
    (∀ c ∈ cs, c.isWhitespace = false) → wsTidy cs = true := by
  intro cs
  induction cs with
  | nil =>
    intro _
    rfl
  | cons c rest ih =>
    intro h
    cases rest with
    | nil =>
      rw [wsTidy_singleton, h c (by simp)]
      rfl
    | cons d rest' =>
      rw [wsTidy_cons₂, h c (by simp)]
      simp only [Bool.false_eq_true, if_false, Bool.true_and]
      exact ih (fun x hx => h x (List.mem_cons_of_mem _ hx))

theorem wsTidy_word_append : ∀ (w : List Char) (d : Char) (rest : List Char),
    (∀ c ∈ w, c.isWhitespace = false) → d.isWhitespace = false →
    wsTidy (d :: rest) = true → wsTidy (w ++ ' ' :: d :: rest) = true := by
  intro w
  induction w with
  | nil =>
    intro d rest _ hd htail
    rw [List.nil_append, wsTidy_cons₂]
    have hsp : (' ' : Char).isWhitespace = true := by decide
    rw [hsp]
    simp [hd, htail]
  | cons c w' ih =>
    intro d rest hall hd htail
    have hc : c.isWhitespace = false := hall c (by simp)
    have hw' : wsTidy (w' ++ ' ' :: d :: rest) = true :=
      ih d rest (fun x hx => hall x (List.mem_cons_of_mem _ hx)) hd htail
    rw [List.cons_append]
    cases hsplit : w' ++ ' ' :: d :: rest with
    | nil => simp at hsplit
    | cons e es =>
      rw [wsTidy_cons₂, hc]
      simp only [Bool.false_eq_true, if_false, Bool.true_and]
      rw [← hsplit]
      exact hw'

theorem wsNormalized_parts (cs : List Char) (h : wsNormalized cs = true) :
    cs ≠ [] ∧ (∀ d tail, cs = d :: tail → d.isWhitespace = false) ∧ wsTidy cs = true := by
  cases cs with
  | nil => cases h
  | cons c l =>
    rw [wsNormalized_cons, Bool.and_eq_true] at h
    refine ⟨by simp, ?_, h.2⟩
    intro d tail he
    cases he
    simpa using h.1

theorem wsNormalized_join : ∀ (ws : List (List Char)),
    ws ≠ [] → (∀ w ∈ ws, w ≠ [] ∧ ∀ c ∈ w, c.isWhitespace = false) →
    wsNormalized (joinSpaceChars ws) = true := by
  intro ws
  induction ws with
  | nil =>
    intro h
    exact absurd rfl h
  | cons a rest ih =>
    intro _ hgood
    obtain ⟨hane, hanws⟩ := hgood a (by simp)
    cases rest with
    | nil =>
      show wsNormalized a = true
      cases a with
      | nil => exact absurd rfl hane
      | cons c a' =>
        rw [wsNormalized_cons, hanws c (by simp)]
        simp only [Bool.not_false, Bool.true_and]
        exact wsTidy_of_all_nonws _ hanws
    | cons b rest' =>
      have hj := ih (by simp) (fun w hw => hgood w (List.mem_cons_of_mem _ hw))
      obtain ⟨hjne, hjhead, hjtidy⟩ := wsNormalized_parts _ hj
      show wsNormalized (a ++ ' ' :: joinSpaceChars (b :: rest')) = true
      cases hjb : joinSpaceChars (b :: rest') with
      | nil => exact absurd hjb hjne
      | cons d tail =>
        have hd : d.isWhitespace = false := hjhead d tail hjb
        have htidy : wsTidy (d :: tail) = true := by
          rw [← hjb]
          exact hjtidy
        have hwt : wsTidy (a ++ ' ' :: d :: tail) = true :=
          wsTidy_word_append a d tail hanws hd htidy
        cases a with
        | nil => exact absurd rfl hane
        | cons c a' =>
          rw [List.cons_append, wsNormalized_cons, hanws c (by simp)]
          simp only [Bool.not_false, Bool.true_and]
          rw [← List.cons_append]
          exact hwt

theorem mkDescription_normalized (parts : List String)
    (hnw : ∃ p ∈ parts, ∃ c ∈ p.data, c.isWhitespace = false) :
    wsNormalized (mkDescription parts).data = true := by
  obtain ⟨p, hp, c, hc, hcw⟩ := hnw
  show wsNormalized (joinSpaceChars (splitWsAux
      (joinSpaceChars (parts.map (fun q => pyStripChars q.data))) [])) = true
  have hcdesc : c ∈ joinSpaceChars (parts.map (fun q => pyStripChars q.data)) := by
    apply mem_joinSpaceChars _ (pyStripChars p.data)
    · exact List.mem_map_of_mem _ hp
    · exact mem_pyStripChars hc hcw
  have hsplit_ne : splitWsAux (joinSpaceChars (parts.map (fun q => pyStripChars q.data))) [] ≠ [] :=
    splitWsAux_ne_nil _ [] (Or.inl ⟨c, hcdesc, hcw⟩)
  exact wsNormalized_join _ hsplit_ne (splitWsAux_good _ [] (by simp))

theorem string_data_ne_nil {s : String} (h : s.isEmpty = false) : s.data ≠ [] := by
  cases s with
  | mk l =>
    intro hd
    rw [show (String.mk l).data = l from rfl] at hd
    subst hd
    exact absurd h (by decide)

theorem flushCurrent_inv {tag : Option String} {buf : List String}
    {acc : List (String × String)}
    (hacc : ∀ kd ∈ acc, kd.1 ≠ "" ∧ wsNormalized kd.2.data = true)
    (hbuf : ∀ l ∈ buf, ∃ c ∈ l.data, c.isWhitespace = false) :
    ∀ kd ∈ flushCurrent tag buf acc, kd.1 ≠ "" ∧ wsNormalized kd.2.data = true := by
  intro kd hkd
  unfold flushCurrent at hkd
  by_cases h : (pyTruthy tag && !buf.isEmpty) = true
  · rw [if_pos h] at hkd
    rw [Bool.and_eq_true] at h
    obtain ⟨h1, h2⟩ := h
    rcases List.mem_append.mp hkd with hin | hin
    · exact hacc kd hin
    · rw [List.mem_singleton] at hin
      subst hin
      constructor
      · cases tag with
        | none => exact absurd h1 (by decide)
        | some s =>
          show s ≠ ""
          intro he
          subst he
          exact absurd h1 (by decide)
      · apply mkDescription_normalized
        cases buf with
        | nil => exact absurd h2 (by decide)
        | cons l ls => exact ⟨l, by simp, hbuf l (by simp)⟩
  · rw [if_neg h] at hkd
    exact hacc kd hkd

theorem extractLoop_cons (raw : String) (rest : List String) (tag : Option String)
    (buf : List String) (acc : List (String × String)) :
    extractLoop (raw :: rest) tag buf acc =
      if (pyStrip raw).isEmpty then extractLoop rest none [] (flushCurrent tag buf acc)
      else if looksLikeTagLine (pyStrip raw) then
        extractLoop rest (some (pyStrip raw)) [] (flushCurrent tag buf acc)
      else match tag with
        | none => extractLoop rest none buf acc
        | some t => extractLoop rest (some t) (buf ++ [pyStrip raw]) acc := rfl

theorem extractLoop_inv : ∀ (lines : List String) (tag : Option String)
    (buf : List String) (acc : List (String × String)),
    (∀ kd ∈ acc, kd.1 ≠ "" ∧ wsNormalized kd.2.data = true) →
    (∀ l ∈ buf, ∃ c ∈ l.data, c.isWhitespace = false) →
    ∀ kd ∈ extractLoop lines tag buf acc, kd.1 ≠ "" ∧ wsNormalized kd.2.data = true := by
  intro lines
  induction lines with
  | nil =>
    intro tag buf acc hacc hbuf
    exact flushCurrent_inv hacc hbuf
  | cons raw rest ih =>
    intro tag buf acc hacc hbuf kd hkd
    rw [extractLoop_cons] at hkd
    by_cases hblank : (pyStrip raw).isEmpty = true
    · rw [if_pos hblank] at hkd
      exact ih none [] (flushCurrent tag buf acc) (flushCurrent_inv hacc hbuf) (by simp) kd hkd
    · rw [if_neg hblank] at hkd
      by_cases htag : looksLikeTagLine (pyStrip raw) = true
      · rw [if_pos htag] at hkd
        exact ih (some (pyStrip raw)) [] (flushCurrent tag buf acc)
          (flushCurrent_inv hacc hbuf) (by simp) kd hkd
      · rw [if_neg htag] at hkd
        cases tag with
        | none => exact ih none buf acc hacc hbuf kd hkd
        | some t =>
          refine ih (some t) (buf ++ [pyStrip raw]) acc hacc ?_ kd hkd
          intro l hl
          rcases List.mem_append.mp hl with h | h
          · exact hbuf l h
          · rw [List.mem_singleton] at h
            subst h
            have hne : (pyStrip raw).data ≠ [] :=
              string_data_ne_nil (Bool.eq_false_iff.mpr hblank)
            exact pyStripChars_has_nonws hne

/-- C3: every record emitted by the Extractor has a non-empty key and a
non-empty description that is whitespace-normalized: no leading or trailing
whitespace, and every internal whitespace run collapsed to a single space
(buffered lines joined with single spaces). -/
theorem C3_record_invariant (lines : List String) (k d : String)
    (h : (k, d) ∈ extract lines) :
    k ≠ "" ∧ d ≠ "" ∧ wsNormalized d.data = true := by
  have hkd := extractLoop_inv lines none [] [] (by simp) (by simp) (k, d) h
  refine ⟨hkd.1, ?_, hkd.2⟩
  intro he
  have h2 : wsNormalized d.data = true := hkd.2
  rw [he] at h2
  exact absurd h2 (by decide)

/-- Witness for C3: the invariant applied to a concrete two-line input. -/
theorem C3_record_invariant_witness :
    ("<a>" : String) ≠ "" ∧ ("x" : String) ≠ ""
      ∧ wsNormalized ("x" : String).data = true :=
  C3_record_invariant ["<a>", "x"] "<a>" "x" (by decide)
